import Mathlib

/-!
# PatternSphere core: shallow embedding and verification

This file embeds the core of the PatternSphere repository — the `Pattern`
entity (`patternsphere/models/pattern.py`), the in-memory repository
(`patternsphere/repository/pattern_repository.py`) and the keyword search
engine (`patternsphere/search/search_engine.py`) — as Lean definitions,
and proves the specified properties about them.

Python strings are modelled as `List Char`; Python `dict`s (which preserve
insertion order) are modelled as association lists; Python `float` scores
are modelled as `ℚ` (all weights and match scores are small dyadic
rationals, so double arithmetic on them is exact).
-/

namespace PatternSphere

/-- Python strings, modelled as lists of characters. -/
abbrev Str := List Char

/-- Python `str.lower()` (ASCII case-folding, which covers the corpus). -/
def strLower (s : Str) : Str := s.map Char.toLower

/-- Python `str.strip()`: drop leading and trailing whitespace. -/
def pyStrip (s : Str) : Str :=
  ((s.dropWhile Char.isWhitespace).reverse.dropWhile Char.isWhitespace).reverse

/-- Helper for `splitWS`: `cur` holds the (reversed) current token. -/
def splitWSAux : Str → Str → List Str
  | [], cur => if cur = [] then [] else [cur.reverse]
  | c :: rest, cur =>
    if c.isWhitespace then
      if cur = [] then splitWSAux rest []
      else cur.reverse :: splitWSAux rest []
    else splitWSAux rest (c :: cur)

/-- Python `str.split()` with no arguments: split on runs of whitespace,
dropping empty tokens. -/
def splitWS (s : Str) : List Str := splitWSAux s []

/-- Python `" ".join(xs)`. -/
def joinSpace : List Str → Str
  | [] => []
  | [x] => x
  | x :: xs => x ++ ' ' :: joinSpace xs

/-! ## The Pattern entity (`patternsphere/models/pattern.py`) -/

/-- `SourceMetadata` from `patternsphere/models/pattern.py`. -/
structure SourceMetadata where
  source_name : Str
  authors : List Str := []
  publication_year : Option Int := none
  url : Option Str := none
deriving DecidableEq, Repr

/-- The `Pattern` record from `patternsphere/models/pattern.py`.
`created_at` (a wall-clock timestamp, irrelevant to every operation
modelled here) is carried as an opaque natural number. -/
structure Pattern where
  id : Str
  name : Str
  intent : Str
  problem : Str
  context : Str := []
  solution : Str
  consequences : Str := []
  related_patterns : List Str := []
  category : Str
  tags : List Str := []
  source_metadata : SourceMetadata
  created_at : Nat := 0
deriving DecidableEq, Repr

/-- `Pattern.has_tag`: `tag.lower() in self.tags`. -/
def Pattern.hasTag (p : Pattern) (tag : Str) : Bool :=
  decide (strLower tag ∈ p.tags)

/-- The `searchable_text` built inside `Pattern.matches_search_query`:
`" ".join([name.lower(), intent.lower(), problem.lower(), solution.lower(),
" ".join(tags)])`. -/
def Pattern.searchableText (p : Pattern) : Str :=
  joinSpace [strLower p.name, strLower p.intent, strLower p.problem,
    strLower p.solution, joinSpace p.tags]

/-- `Pattern.matches_search_query`: `query.lower() in searchable_text`. -/
def Pattern.matchesSearchQuery (p : Pattern) (query : Str) : Bool :=
  decide (strLower query <:+: p.searchableText)

/-- The raw record handed to Pydantic validation when a `Pattern` is
constructed. -/
structure RawPattern where
  id : Str
  name : Str
  intent : Str
  problem : Str
  context : Str := []
  solution : Str
  consequences : Str := []
  related_patterns : List Str := []
  category : Str
  tags : List Str := []
  source_metadata : SourceMetadata
  created_at : Nat := 0
deriving DecidableEq, Repr

/-- The duplicate-removal loop of `validate_tags` (a `seen` set plus an
output list, preserving first-occurrence order). -/
def dedupeAux : List Str → List Str → List Str
  | [], _ => []
  | t :: ts, seen =>
    if t ∈ seen then dedupeAux ts seen else t :: dedupeAux ts (t :: seen)

def dedupe (l : List Str) : List Str := dedupeAux l []

/-- Pydantic validation of a `Pattern` record: the field constraints
(`min_length`/`max_length`) and the `field_validator`s of
`patternsphere/models/pattern.py`, plus `SourceMetadata` validation.
Note that `id` has no constraint and no validator: any string, including
the empty string, is accepted unchanged. -/
def validatePattern (raw : RawPattern) : Option Pattern :=
  -- name: min_length=1, max_length=200, then validate_name (strip, nonempty)
  if raw.name.length < 1 ∨ raw.name.length > 200 then none
  else if pyStrip raw.name = [] then none
  -- intent, problem, solution: min_length=1
  else if raw.intent.length < 1 then none
  else if raw.problem.length < 1 then none
  else if raw.solution.length < 1 then none
  -- category: min_length=1, max_length=100, then validate_category
  else if raw.category.length < 1 ∨ raw.category.length > 100 then none
  else if pyStrip raw.category = [] then none
  -- source_metadata: source_name min_length=1; authors nonempty entries;
  -- publication_year in [1950, 2100]
  else if raw.source_metadata.source_name.length < 1 then none
  else if raw.source_metadata.authors.any (fun a => pyStrip a = []) then none
  else if (match raw.source_metadata.publication_year with
           | some y => decide (y < 1950 ∨ y > 2100)
           | none => false) then none
  else
    some
      { id := raw.id
        name := pyStrip raw.name
        intent := raw.intent
        problem := raw.problem
        context := raw.context
        solution := raw.solution
        consequences := raw.consequences
        related_patterns :=
          (raw.related_patterns.filter (fun t => pyStrip t ≠ [])).map pyStrip
        category := pyStrip raw.category
        tags :=
          dedupe ((raw.tags.filter (fun t => pyStrip t ≠ [])).map
            (fun t => strLower (pyStrip t)))
        source_metadata := raw.source_metadata
        created_at := raw.created_at }

/-! ## The repository (`patternsphere/repository/pattern_repository.py`)

Python `dict`s preserve insertion order and are modelled as association
lists; `dict.get` is first-match lookup. -/

/-- `d.get(k)` on an association list. -/
def alGet {α : Type} (l : List (Str × α)) (k : Str) : Option α :=
  (l.find? (fun e => e.1 == k)).map (fun e => e.2)

/-- The state of an `InMemoryPatternRepository` (constructed without a
storage backend): the primary store and the two derived indexes. -/
structure Repo where
  patterns : List (Str × Pattern)
  name_index : List (Str × Str)
  category_index : List (Str × List Str)
deriving DecidableEq, Repr

/-- `InMemoryPatternRepository()` with no storage: all three dicts empty. -/
def emptyRepo : Repo := ⟨[], [], []⟩

/-- The two conflict errors `add_pattern` can raise (both are
`RepositoryError`s in the source, distinguished by their message). -/
inductive RepoError where
  | duplicateId (id : Str)
  | duplicateName (name : Str) (existing_id : Str)
deriving DecidableEq, Repr

/-- `self._category_index[category].append(pattern_id)` on a
`defaultdict(list)`. -/
def catAppend : List (Str × List Str) → Str → Str → List (Str × List Str)
  | [], c, i => [(c, [i])]
  | e :: rest, c, i =>
    if e.1 = c then (e.1, e.2 ++ [i]) :: rest else e :: catAppend rest c i

/-- `InMemoryPatternRepository.add_pattern`, with the mutation-or-raise
outcome made explicit: the returned state is unchanged on error (the
source raises before touching any index). -/
def addPattern (r : Repo) (p : Pattern) : Option RepoError × Repo :=
  if (alGet r.patterns p.id).isSome then
    (some (.duplicateId p.id), r)
  else
    match alGet r.name_index p.name with
    | some existing_id => (some (.duplicateName p.name existing_id), r)
    | none =>
      (none,
        { patterns := r.patterns ++ [(p.id, p)]
          name_index := r.name_index ++ [(p.name, p.id)]
          category_index := catAppend r.category_index p.category p.id })

/-- `InMemoryPatternRepository.get_pattern_by_id`. -/
def getById (r : Repo) (pattern_id : Str) : Option Pattern :=
  alGet r.patterns pattern_id

/-- `InMemoryPatternRepository.get_pattern_by_name`. Note the truthiness
test `if pattern_id:` in the source: an empty-string id stored in the
name index is treated like an absent entry. -/
def getByName (r : Repo) (name : Str) : Option Pattern :=
  match alGet r.name_index name with
  | some pattern_id =>
    if pattern_id = [] then none else alGet r.patterns pattern_id
  | none => none

/-- Ordering by `pattern.name` (Python compares strings lexicographically
by code point; `List Char` carries the same lexicographic order). -/
def pnameLe (p q : Pattern) : Prop := p.name ≤ q.name

instance : DecidableRel pnameLe := fun p q =>
  inferInstanceAs (Decidable (p.name ≤ q.name))

instance : IsTotal Pattern pnameLe := ⟨fun a b => le_total a.name b.name⟩

instance : IsTrans Pattern pnameLe := ⟨fun _ _ _ h1 h2 => le_trans h1 h2⟩

/-- `patterns.sort(key=lambda p: p.name)` (a stable sort). -/
def sortByName (l : List Pattern) : List Pattern := l.insertionSort pnameLe

/-- `InMemoryPatternRepository.list_all_patterns`. -/
def listAll (r : Repo) : List Pattern :=
  sortByName (r.patterns.map (fun e => e.2))

/-- `InMemoryPatternRepository.get_patterns_by_category`. -/
def getByCategory (r : Repo) (category : Str) : List Pattern :=
  sortByName
    (((alGet r.category_index category).getD []).filterMap
      (fun pid => alGet r.patterns pid))

/-- `InMemoryPatternRepository.get_all_categories`. -/
def getAllCategories (r : Repo) : List (Str × Nat) :=
  r.category_index.map (fun e => (e.1, e.2.length))

/-- `InMemoryPatternRepository.count`. -/
def countRepo (r : Repo) : Nat := r.patterns.length

/-- `InMemoryPatternRepository.clear`. -/
def clearRepo (_ : Repo) : Repo := ⟨[], [], []⟩

/-- `InMemoryPatternRepository.search_patterns` (the unranked
substring/filter search). -/
def searchPatterns (r : Repo) (query : Str) (category : Option Str)
    (tags : Option (List Str)) : List Pattern :=
  let base : List Pattern :=
    match category with
    | some c => if c = [] then r.patterns.map (fun e => e.2) else getByCategory r c
    | none => r.patterns.map (fun e => e.2)
  let afterTags : List Pattern :=
    match tags with
    | some ts =>
      if ts = [] then base
      else
        let tags_lower := ts.map strLower
        base.filter (fun p => tags_lower.any (fun t => p.hasTag t))
    | none => base
  let afterQuery : List Pattern :=
    if query = [] then afterTags
    else afterTags.filter (fun p => p.matchesSearchQuery query)
  sortByName afterQuery

/-! ## The search engine (`patternsphere/search/search_engine.py`) -/

/-- The six searchable fields (the keys of
`KeywordSearchEngine.FIELD_WEIGHTS`). -/
inductive FieldName where
  | name
  | intent
  | problem
  | solution
  | tags
  | category
deriving DecidableEq, Repr

instance : Fintype FieldName :=
  ⟨⟨{.name, .intent, .problem, .solution, .tags, .category}, by decide⟩,
    by intro x; cases x <;> decide⟩

/-- `KeywordSearchEngine.FIELD_WEIGHTS`, in the source's dict insertion
order. -/
def FIELD_WEIGHTS : List (FieldName × ℚ) :=
  [(.name, 5), (.intent, 3), (.problem, 2), (.solution, 3/2),
    (.tags, 4), (.category, 5/2)]

def EXACT_MATCH_SCORE : ℚ := 1

def PARTIAL_MATCH_SCORE : ℚ := 1/2

/-- `SearchResult` from `patternsphere/search/search_engine.py`. -/
structure SearchResult where
  pattern : Pattern
  score : ℚ
  matched_fields : Finset FieldName
deriving DecidableEq

/-- The `field_text` computed at the top of
`KeywordSearchEngine._score_field` (tags joined by single spaces, every
field lower-cased). -/
def fieldText (p : Pattern) : FieldName → Str
  | .tags => strLower (joinSpace p.tags)
  | .name => strLower p.name
  | .intent => strLower p.intent
  | .problem => strLower p.problem
  | .solution => strLower p.solution
  | .category => strLower p.category

/-- `KeywordSearchEngine._score_field`. -/
def scoreField (p : Pattern) (f : FieldName) (query_terms : List Str) : ℚ :=
  let field_text := fieldText p f
  if field_text = [] then 0
  else
    let field_words := splitWS field_text
    query_terms.foldl
      (fun acc term =>
        if term ∈ field_words then acc + EXACT_MATCH_SCORE
        else if term <:+: field_text then acc + PARTIAL_MATCH_SCORE
        else acc) 0

/-- `KeywordSearchEngine._score_pattern`. -/
def scorePattern (p : Pattern) (query_terms : List Str) :
    ℚ × Finset FieldName :=
  FIELD_WEIGHTS.foldl
    (fun acc fw =>
      let field_score := scoreField p fw.1 query_terms
      if 0 < field_score then (acc.1 + field_score * fw.2, insert fw.1 acc.2)
      else acc)
    (0, ∅)

/-- `KeywordSearchEngine._normalize_query`. -/
def normalizeQuery (query : Str) : List Str :=
  ((splitWS query).map (fun t => strLower (pyStrip t))).filter (fun t => t ≠ [])

/-- `KeywordSearchEngine._filter_by_tags`. -/
def filterByTags (patterns : List Pattern) (tags : List Str) : List Pattern :=
  if tags = [] then patterns
  else
    let tags_lower := tags.map strLower
    patterns.filter (fun p => tags_lower.any (fun t => p.hasTag t))

/-- `results.sort(key=lambda r: (-r.score, r.pattern.name))`: score
descending, then pattern name ascending. -/
def resLe (a b : SearchResult) : Prop :=
  b.score < a.score ∨ (a.score = b.score ∧ a.pattern.name ≤ b.pattern.name)

instance : DecidableRel resLe := fun a b =>
  inferInstanceAs
    (Decidable (b.score < a.score ∨
      (a.score = b.score ∧ a.pattern.name ≤ b.pattern.name)))

instance : IsTotal SearchResult resLe := by
  constructor
  intro a b
  rcases lt_trichotomy a.score b.score with h | h | h
  · exact Or.inr (Or.inl h)
  · rcases le_total a.pattern.name b.pattern.name with hn | hn
    · exact Or.inl (Or.inr ⟨h, hn⟩)
    · exact Or.inr (Or.inr ⟨h.symm, hn⟩)
  · exact Or.inl (Or.inl h)

instance : IsTrans SearchResult resLe := by
  constructor
  intro a b c hab hbc
  rcases hab with h1 | ⟨h1, h1n⟩
  · rcases hbc with h2 | ⟨h2, _⟩
    · exact Or.inl (h2.trans h1)
    · exact Or.inl (h2 ▸ h1)
  · rcases hbc with h2 | ⟨h2, h2n⟩
    · exact Or.inl (h1 ▸ h2)
    · exact Or.inr ⟨h1.trans h2, h1n.trans h2n⟩

/-- `results.sort(key=lambda r: r.pattern.name)` (the empty-query branch). -/
def resNameLe (a b : SearchResult) : Prop :=
  a.pattern.name ≤ b.pattern.name

instance : DecidableRel resNameLe := fun a b =>
  inferInstanceAs (Decidable (a.pattern.name ≤ b.pattern.name))

instance : IsTotal SearchResult resNameLe :=
  ⟨fun a b => le_total a.pattern.name b.pattern.name⟩

instance : IsTrans SearchResult resNameLe :=
  ⟨fun _ _ _ h1 h2 => le_trans h1 h2⟩

/-- The candidate set of `KeywordSearchEngine.search` (lines 122–133):
category filter via the repository, then the tag filter. Python truthiness
makes `category=""` and `tags=[]` behave like absent filters. -/
def engineCandidates (r : Repo) (category : Option Str)
    (tags : Option (List Str)) : List Pattern :=
  let base :=
    match category with
    | some c => if c = [] then listAll r else getByCategory r c
    | none => listAll r
  match tags with
  | some ts => if ts = [] then base else filterByTags base ts
  | none => base

/-- `KeywordSearchEngine.search`. -/
def engineSearch (r : Repo) (query : Str) (category : Option Str)
    (tags : Option (List Str)) : List SearchResult :=
  let patterns := engineCandidates r category tags
  if query = [] ∨ pyStrip query = [] then
    (patterns.map (fun p => SearchResult.mk p 0 ∅)).insertionSort resNameLe
  else
    let query_terms := normalizeQuery query
    (patterns.filterMap
      (fun p =>
        let sm := scorePattern p query_terms
        if 0 < sm.1 then some (SearchResult.mk p sm.1 sm.2) else none)
      ).insertionSort resLe

/-- `repository.list_all_patterns()` as a state transformer: the method
only reads `self._patterns`, so it returns the state unchanged. -/
def listAllSt (r : Repo) : List Pattern × Repo := (listAll r, r)

/-- `repository.get_patterns_by_category()` as a state transformer: the
method only reads the category index and the primary store. -/
def getByCategorySt (r : Repo) (c : Str) : List Pattern × Repo :=
  (getByCategory r c, r)

/-- `KeywordSearchEngine.search` with the repository state threaded
through every repository access, to express the frame property. -/
def engineSearchSt (r : Repo) (query : Str) (category : Option Str)
    (tags : Option (List Str)) : List SearchResult × Repo :=
  let baseSt :=
    match category with
    | some c => if c = [] then listAllSt r else getByCategorySt r c
    | none => listAllSt r
  let r1 := baseSt.2
  let patterns :=
    match tags with
    | some ts => if ts = [] then baseSt.1 else filterByTags baseSt.1 ts
    | none => baseSt.1
  if query = [] ∨ pyStrip query = [] then
    ((patterns.map (fun p => SearchResult.mk p 0 ∅)).insertionSort resNameLe,
      r1)
  else
    let query_terms := normalizeQuery query
    ((patterns.filterMap
      (fun p =>
        let sm := scorePattern p query_terms
        if 0 < sm.1 then some (SearchResult.mk p sm.1 sm.2) else none)
      ).insertionSort resLe, r1)

/-! ## Spec-side scoring definitions (for the refinement claims)

These follow the specification's wording, to be compared with the
source-derived `scoreField`/`scorePattern` above. -/

/-- Spec-side contribution of one query term to one field: `1.0` for a
verbatim token match, else `0.5` for a substring match, else `0.0`. -/
def termContrib (p : Pattern) (f : FieldName) (t : Str) : ℚ :=
  if t ∈ splitWS (fieldText p f) then 1
  else if t <:+: fieldText p f then 1/2
  else 0

/-- Spec-side raw field score: the sum of the per-term contributions. -/
def scoreFieldSpec (p : Pattern) (f : FieldName) (terms : List Str) : ℚ :=
  (terms.map (termContrib p f)).sum

/-- Spec-side field weights, in the claim's order: name 5.0, tags 4.0,
intent 3.0, category 2.5, problem 2.0, solution 1.5. -/
def specWeight : FieldName → ℚ
  | .name => 5
  | .tags => 4
  | .intent => 3
  | .category => 5/2
  | .problem => 2
  | .solution => 3/2

/-- The claim's field enumeration order. -/
def specFields : List FieldName :=
  [.name, .tags, .intent, .category, .problem, .solution]

/-! ## Repository invariant and reachability -/

/-- `p` is stored in the repository's primary dict (under its own id). -/
def storedIn (r : Repo) (p : Pattern) : Prop := (p.id, p) ∈ r.patterns

/-- Repository states reachable from a fresh repository by successful
`add_pattern` calls and `clear` calls. -/
inductive Reachable : Repo → Prop where
  | empty : Reachable emptyRepo
  | add {r r' : Repo} {p : Pattern} :
      Reachable r → addPattern r p = (none, r') → Reachable r'
  | clear {r : Repo} : Reachable r → Reachable (clearRepo r)

/-- The consistency invariant tying the three indexes together. -/
structure Inv (r : Repo) : Prop where
  keys : ∀ e ∈ r.patterns, e.2.id = e.1
  getId : ∀ i p, (i, p) ∈ r.patterns → alGet r.patterns i = some p
  nameIdx : ∀ i p, (i, p) ∈ r.patterns → alGet r.name_index p.name = some i
  nameSound : ∀ n i, alGet r.name_index n = some i →
    ∃ p, (i, p) ∈ r.patterns ∧ p.name = n
  catIdx : ∀ i p, (i, p) ∈ r.patterns →
    ∃ ids, alGet r.category_index p.category = some ids ∧ i ∈ ids
  catSound : ∀ c ids, alGet r.category_index c = some ids →
    ∀ i ∈ ids, ∃ p, (i, p) ∈ r.patterns ∧ p.category = c

/-! ## Concrete test data (used by witnesses and counterexamples) -/

def srcMeta : SourceMetadata := { source_name := ("OORP".toList) }

def pSingleton : Pattern :=
  { id := ("id-1".toList)
    name := ("Singleton Pattern".toList)
    intent := ("Ensure a class has one instance".toList)
    problem := ("Global access".toList)
    solution := ("Use a class attribute".toList)
    category := ("Creational".toList)
    tags := [("creation".toList)]
    source_metadata := srcMeta }

def rSing : Repo := (addPattern emptyRepo pSingleton).2

def qSing : Str := ("singleton".toList)

def pX : Pattern :=
  { id := ("one".toList)
    name := ("X".toList)
    intent := ("i".toList)
    problem := ("p".toList)
    solution := ("s".toList)
    category := ("c".toList)
    source_metadata := srcMeta }

def pY : Pattern := { pX with id := ("two".toList) }

def rX : Repo := (addPattern emptyRepo pX).2

def rawA : RawPattern :=
  { id := []
    name := ("Alpha".toList)
    intent := ("i".toList)
    problem := ("p".toList)
    solution := ("s".toList)
    category := ("c".toList)
    source_metadata := srcMeta }

def pEmptyId : Pattern :=
  { id := []
    name := ("Alpha".toList)
    intent := ("i".toList)
    problem := ("p".toList)
    solution := ("s".toList)
    category := ("c".toList)
    source_metadata := srcMeta }

def rEmptyId : Repo := (addPattern emptyRepo pEmptyId).2

def pZZZ : Pattern :=
  { id := ("z1".toList)
    name := ("zzznonexistent".toList)
    intent := ("i".toList)
    problem := ("p".toList)
    solution := ("s".toList)
    category := ("c".toList)
    source_metadata := srcMeta }

def rZZZ : Repo := (addPattern emptyRepo pZZZ).2

def qZZZ : Str := ("zzznonexistent".toList)

instance (r : Repo) (p : Pattern) : Decidable (storedIn r p) :=
  inferInstanceAs (Decidable ((p.id, p) ∈ r.patterns))

/-- Every token produced by `splitWSAux` is nonempty, provided the running
token `cur` would be nonempty when flushed. -/
theorem splitWSAux_ne_nil (s : Str) :
    ∀ cur, (cur = [] ∨ cur ≠ []) → ∀ t ∈ splitWSAux s cur, t ≠ [] := by
  induction s with
  | nil =>
    intro cur _ t ht
    simp only [splitWSAux] at ht
    split at ht
    · simp at ht
    · rename_i hcur
      simp only [List.mem_singleton] at ht
      subst ht
      simpa using hcur
  | cons c rest ih =>
    intro cur _ t ht
    simp only [splitWSAux] at ht
    split at ht
    · split at ht
      · exact ih [] (Or.inl rfl) t ht
      · rename_i hcur
        rcases List.mem_cons.mp ht with h | h
        · subst h; simpa using hcur
        · exact ih [] (Or.inl rfl) t h
    · exact ih (c :: cur) (Or.inr (by simp)) t ht

/-- Tokens of `splitWS` are nonempty. -/
theorem splitWS_ne_nil (s : Str) : ∀ t ∈ splitWS s, t ≠ [] :=
  splitWSAux_ne_nil s [] (Or.inl rfl)

/-- Every token produced by `splitWSAux s cur` is an infix of
`cur.reverse ++ s`. -/
theorem splitWSAux_substr (s : Str) :
    ∀ cur, ∀ t ∈ splitWSAux s cur, t <:+: cur.reverse ++ s := by
  induction s with
  | nil =>
    intro cur t ht
    simp only [splitWSAux] at ht
    split at ht
    · simp at ht
    · simp only [List.mem_singleton] at ht
      subst ht
      simp
  | cons c rest ih =>
    intro cur t ht
    simp only [splitWSAux] at ht
    split at ht
    · split at ht
      · rename_i hcur
        have := ih [] t ht
        simp only [List.reverse_nil, List.nil_append] at this
        subst hcur
        simp only [List.reverse_nil, List.nil_append]
        exact this.trans ⟨[c], [], by simp⟩
      · rcases List.mem_cons.mp ht with h | h
        · subst h
          exact ⟨[], c :: rest, by simp⟩
        · have := ih [] t h
          simp only [List.reverse_nil, List.nil_append] at this
          exact this.trans ⟨cur.reverse ++ [c], [], by simp⟩
    · have := ih (c :: cur) t ht
      simpa using this

/-- Tokens of `splitWS s` are infixes of `s`. -/
theorem splitWS_substr (s : Str) : ∀ t ∈ splitWS s, t <:+: s := by
  intro t ht
  simpa using splitWSAux_substr s [] t ht

/-- Splitting distributes over a whitespace-separated concatenation. -/
theorem splitWSAux_append (b : Str) (c : Char) (hc : c.isWhitespace) :
    ∀ (a cur : Str),
      splitWSAux (a ++ c :: b) cur = splitWSAux a cur ++ splitWSAux b [] := by
  intro a
  induction a with
  | nil =>
    intro cur
    simp only [List.nil_append, splitWSAux, hc, if_true]
    split
    · rename_i hcur
      simp [splitWSAux, hcur]
    · rename_i hcur
      simp [splitWSAux, hcur]
  | cons x a ih =>
    intro cur
    simp only [List.cons_append, splitWSAux]
    split
    · split
      · exact ih []
      · simp only [List.append_eq]
        rw [ih []]
        simp
    · exact ih (x :: cur)

theorem splitWS_append (a b : Str) (c : Char) (hc : c.isWhitespace) :
    splitWS (a ++ c :: b) = splitWS a ++ splitWS b :=
  splitWSAux_append b c hc a []

/-! ## Scoring lemmas -/

theorem termContrib_nonneg (p : Pattern) (f : FieldName) (t : Str) :
    0 ≤ termContrib p f t := by
  unfold termContrib
  split_ifs <;> norm_num

/-- The accumulator loop of `_score_field` computes the sum of the
per-term contributions. -/
theorem scoreField_foldl (p : Pattern) (f : FieldName) (ts : List Str) :
    ∀ acc : ℚ,
      ts.foldl
        (fun acc term =>
          if term ∈ splitWS (fieldText p f) then acc + EXACT_MATCH_SCORE
          else if term <:+: fieldText p f then acc + PARTIAL_MATCH_SCORE
          else acc) acc
      = acc + (ts.map (termContrib p f)).sum := by
  induction ts with
  | nil => intro acc; simp
  | cons t ts ih =>
    intro acc
    simp only [List.foldl_cons, List.map_cons, List.sum_cons]
    rw [ih]
    unfold termContrib EXACT_MATCH_SCORE PARTIAL_MATCH_SCORE
    split_ifs <;> ring

theorem scoreFieldSpec_nonneg (p : Pattern) (f : FieldName) (ts : List Str) :
    0 ≤ scoreFieldSpec p f ts := by
  unfold scoreFieldSpec
  apply List.sum_nonneg
  intro x hx
  rcases List.mem_map.mp hx with ⟨t, _, rfl⟩
  exact termContrib_nonneg p f t

/-- On an empty field text a nonempty term contributes nothing. -/
theorem termContrib_empty_text (p : Pattern) (f : FieldName)
    (hf : fieldText p f = []) (t : Str) (ht : t ≠ []) :
    termContrib p f t = 0 := by
  unfold termContrib
  rw [hf]
  have h1 : t ∉ splitWS ([] : Str) := by simp [splitWS, splitWSAux]
  have h2 : ¬ t <:+: ([] : Str) := fun h => ht (List.eq_nil_of_infix_nil h)
  simp [h1, h2]

/-- `_score_field` agrees with the spec-side raw field score on term lists
without empty terms (which is all `_normalize_query` ever produces). -/
theorem scoreField_eq_spec (p : Pattern) (f : FieldName) (ts : List Str)
    (h : ∀ t ∈ ts, t ≠ []) :
    scoreField p f ts = scoreFieldSpec p f ts := by
  unfold scoreField scoreFieldSpec
  dsimp only
  split
  · rename_i hf
    symm
    apply List.sum_eq_zero
    intro x hx
    rcases List.mem_map.mp hx with ⟨t, hmem, rfl⟩
    exact termContrib_empty_text p f hf t (h t hmem)
  · rw [scoreField_foldl]
    simp [scoreFieldSpec]

theorem scoreField_nonneg (p : Pattern) (f : FieldName) (ts : List Str) :
    0 ≤ scoreField p f ts := by
  unfold scoreField
  dsimp only
  split
  · exact le_refl 0
  · rw [scoreField_foldl]
    simpa using scoreFieldSpec_nonneg p f ts

/-- Additivity of the raw field score in the term list. -/
theorem scoreField_append (p : Pattern) (f : FieldName) (ts ex : List Str) :
    scoreField p f (ts ++ ex) = scoreField p f ts + scoreField p f ex := by
  unfold scoreField
  dsimp only
  split
  · norm_num
  · rw [scoreField_foldl, scoreField_foldl, scoreField_foldl]
    simp [add_assoc]

/-- The total-score accumulator of `_score_pattern`, unfolded to a sum. -/
theorem scorePattern_foldl_fst (p : Pattern) (ts : List Str)
    (L : List (FieldName × ℚ)) :
    ∀ (t0 : ℚ) (m0 : Finset FieldName),
      (L.foldl
        (fun acc fw =>
          let field_score := scoreField p fw.1 ts
          if 0 < field_score then
            (acc.1 + field_score * fw.2, insert fw.1 acc.2)
          else acc)
        (t0, m0)).1
      = t0 + (L.map (fun fw => scoreField p fw.1 ts * fw.2)).sum := by
  induction L with
  | nil => intro t0 m0; simp
  | cons fw L ih =>
    intro t0 m0
    simp only [List.foldl_cons, List.map_cons, List.sum_cons]
    split
    · rw [ih]; ring
    · rename_i hne
      rw [ih]
      have h0 : scoreField p fw.1 ts = 0 :=
        le_antisymm (not_lt.mp hne) (scoreField_nonneg p fw.1 ts)
      rw [h0]; ring

/-- The matched-fields accumulator of `_score_pattern`, unfolded. -/
theorem scorePattern_foldl_snd (p : Pattern) (ts : List Str)
    (L : List (FieldName × ℚ)) :
    ∀ (t0 : ℚ) (m0 : Finset FieldName) (f : FieldName),
      (f ∈ (L.foldl
        (fun acc fw =>
          let field_score := scoreField p fw.1 ts
          if 0 < field_score then
            (acc.1 + field_score * fw.2, insert fw.1 acc.2)
          else acc)
        (t0, m0)).2
      ↔ f ∈ m0 ∨ ∃ fw ∈ L, fw.1 = f ∧ 0 < scoreField p fw.1 ts) := by
  induction L with
  | nil => intro t0 m0 f; simp
  | cons fw L ih =>
    intro t0 m0 f
    simp only [List.foldl_cons]
    split
    · rename_i hpos
      rw [ih]
      simp only [Finset.mem_insert, List.mem_cons]
      constructor
      · rintro ((h | h) | h)
        · exact Or.inr ⟨fw, Or.inl rfl, h ▸ rfl, h ▸ hpos⟩
        · exact Or.inl h
        · rcases h with ⟨g, hg, hgf, hgs⟩
          exact Or.inr ⟨g, Or.inr hg, hgf, hgs⟩
      · rintro (h | ⟨g, (hg | hg), hgf, hgs⟩)
        · exact Or.inl (Or.inr h)
        · exact Or.inl (Or.inl (hgf ▸ hg ▸ rfl))
        · exact Or.inr ⟨g, hg, hgf, hgs⟩
    · rename_i hne
      rw [ih]
      simp only [List.mem_cons]
      constructor
      · rintro (h | ⟨g, hg, hgf, hgs⟩)
        · exact Or.inl h
        · exact Or.inr ⟨g, Or.inr hg, hgf, hgs⟩
      · rintro (h | ⟨g, (hg | hg), hgf, hgs⟩)
        · exact Or.inl h
        · exact absurd (hg ▸ hgs) hne
        · exact Or.inr ⟨g, hg, hgf, hgs⟩

/-- The total score is the weighted sum of the six raw field scores. -/
theorem scorePattern_fst (p : Pattern) (ts : List Str) :
    (scorePattern p ts).1
    = (FIELD_WEIGHTS.map (fun fw => scoreField p fw.1 ts * fw.2)).sum := by
  unfold scorePattern
  rw [scorePattern_foldl_fst]
  ring

/-- A field is in `matched_fields` iff its raw field score is positive. -/
theorem scorePattern_snd (p : Pattern) (ts : List Str) (f : FieldName) :
    f ∈ (scorePattern p ts).2 ↔ 0 < scoreField p f ts := by
  unfold scorePattern
  rw [scorePattern_foldl_snd]
  simp only [Finset.not_mem_empty, false_or, FIELD_WEIGHTS]
  constructor
  · rintro ⟨fw, _, hgf, hgs⟩
    exact hgf ▸ hgs
  · intro h
    cases f
    · exact ⟨(.name, 5), by simp, rfl, h⟩
    · exact ⟨(.intent, 3), by simp, rfl, h⟩
    · exact ⟨(.problem, 2), by simp, rfl, h⟩
    · exact ⟨(.solution, 3/2), by simp, rfl, h⟩
    · exact ⟨(.tags, 4), by simp, rfl, h⟩
    · exact ⟨(.category, 5/2), by simp, rfl, h⟩

theorem scorePattern_fst_nonneg (p : Pattern) (ts : List Str) :
    0 ≤ (scorePattern p ts).1 := by
  rw [scorePattern_fst]
  apply List.sum_nonneg
  intro x hx
  rcases List.mem_map.mp hx with ⟨fw, hfw, rfl⟩
  have hw : (0 : ℚ) ≤ fw.2 := by
    fin_cases hfw <;> norm_num
  exact mul_nonneg (scoreField_nonneg p fw.1 ts) hw

/-! ## Association-list lemmas -/

theorem alGet_cons {α : Type} (e : Str × α) (l : List (Str × α)) (k : Str) :
    alGet (e :: l) k = if e.1 = k then some e.2 else alGet l k := by
  by_cases h : e.1 = k
  · simp [alGet, List.find?_cons_of_pos, h]
  · simp [alGet, List.find?_cons_of_neg, h]

theorem alGet_append {α : Type} (l₁ l₂ : List (Str × α)) (k : Str) :
    alGet (l₁ ++ l₂) k = (alGet l₁ k).or (alGet l₂ k) := by
  unfold alGet
  rw [List.find?_append]
  cases l₁.find? (fun e => e.1 == k) <;> simp

theorem alGet_singleton {α : Type} (k k' : Str) (v : α) :
    alGet [(k', v)] k = if k' = k then some v else none := by
  rw [alGet_cons]
  rfl

theorem alGet_mem {α : Type} {l : List (Str × α)} {k : Str} {v : α}
    (h : alGet l k = some v) : (k, v) ∈ l := by
  unfold alGet at h
  cases hf : l.find? (fun e => e.1 == k) with
  | none => rw [hf] at h; simp at h
  | some e =>
    rw [hf] at h
    simp only [Option.map_some', Option.some.injEq] at h
    have hm := List.mem_of_find?_eq_some hf
    have hp : e.1 = k := by simpa using List.find?_some hf
    have he : e = (k, v) := by
      cases e
      simp_all
    rwa [he] at hm

theorem alGet_eq_none_iff {α : Type} {l : List (Str × α)} {k : Str} :
    alGet l k = none ↔ k ∉ l.map Prod.fst := by
  unfold alGet
  rw [Option.map_eq_none', List.find?_eq_none]
  simp only [List.mem_map]
  constructor
  · rintro h ⟨e, he, rfl⟩
    exact h e he (by simp)
  · intro h e he hp
    exact h ⟨e, he, by simpa using hp⟩

theorem alGet_append_of_some {α : Type} {l : List (Str × α)} {k : Str} {v : α}
    (h : alGet l k = some v) (l₂ : List (Str × α)) :
    alGet (l ++ l₂) k = some v := by
  rw [alGet_append, h]
  rfl

theorem alGet_append_of_none {α : Type} {l : List (Str × α)} {k : Str}
    (h : alGet l k = none) (l₂ : List (Str × α)) :
    alGet (l ++ l₂) k = alGet l₂ k := by
  rw [alGet_append, h]
  rfl

/-- The effect of `defaultdict(list)`'s `[c].append(i)` on lookups. -/
theorem alGet_catAppend (ci : List (Str × List Str)) (c i : Str) (c' : Str) :
    alGet (catAppend ci c i) c'
    = if c' = c then some ((alGet ci c).getD [] ++ [i]) else alGet ci c' := by
  induction ci with
  | nil =>
    simp only [catAppend]
    by_cases h : c' = c
    · subst h
      simp [alGet_singleton, alGet]
    · rw [if_neg h, alGet_singleton]
      rw [if_neg (fun hh => h hh.symm)]
      rfl
  | cons e rest ih =>
    obtain ⟨k, v⟩ := e
    simp only [catAppend]
    by_cases he : k = c
    · subst he
      rw [if_pos rfl]
      by_cases h : c' = k
      · subst h
        rw [if_pos rfl, alGet_cons, alGet_cons]
        simp
      · rw [if_neg h, alGet_cons, alGet_cons]
        dsimp only
        rw [if_neg (fun hh : k = c' => h hh.symm),
          if_neg (fun hh : k = c' => h hh.symm)]
    · rw [if_neg he, alGet_cons]
      dsimp only
      rw [ih]
      by_cases h : c' = c
      · have hk : ¬ k = c' := fun hh => he (hh.trans h)
        rw [if_neg hk, if_pos h, if_pos h, alGet_cons]
        dsimp only
        rw [if_neg he]
      · rw [if_neg h, if_neg h, alGet_cons]

theorem inv_empty : Inv emptyRepo := by
  constructor <;> simp [emptyRepo, alGet]

theorem inv_clear (r : Repo) : Inv (clearRepo r) := by
  constructor <;> simp [clearRepo, alGet]

/-- Successful `add_pattern` happens exactly when both uniqueness guards
pass, and then all three indexes receive the new pattern. -/
theorem addPattern_ok {r r' : Repo} {p : Pattern}
    (h : addPattern r p = (none, r')) :
    alGet r.patterns p.id = none ∧ alGet r.name_index p.name = none ∧
    r' = { patterns := r.patterns ++ [(p.id, p)]
           name_index := r.name_index ++ [(p.name, p.id)]
           category_index := catAppend r.category_index p.category p.id } := by
  unfold addPattern at h
  split at h
  · simp at h
  · rename_i hid
    split at h
    · simp at h
    · rename_i hname
      refine ⟨?_, hname, ?_⟩
      · cases hg : alGet r.patterns p.id with
        | none => rfl
        | some v => rw [hg] at hid; simp at hid
      · simpa using h.symm

theorem inv_add {r r' : Repo} {p : Pattern} (hr : Inv r)
    (h : addPattern r p = (none, r')) : Inv r' := by
  obtain ⟨hid, hname, rfl⟩ := addPattern_ok h
  constructor
  · intro e he
    rcases List.mem_append.mp he with h1 | h1
    · exact hr.keys e h1
    · simp only [List.mem_singleton] at h1
      subst h1
      rfl
  · intro i q hq
    rcases List.mem_append.mp hq with h1 | h1
    · exact alGet_append_of_some (hr.getId i q h1) _
    · simp only [List.mem_singleton, Prod.mk.injEq] at h1
      obtain ⟨rfl, rfl⟩ := h1
      rw [alGet_append_of_none hid, alGet_singleton, if_pos rfl]
  · intro i q hq
    rcases List.mem_append.mp hq with h1 | h1
    · exact alGet_append_of_some (hr.nameIdx i q h1) _
    · simp only [List.mem_singleton, Prod.mk.injEq] at h1
      obtain ⟨rfl, rfl⟩ := h1
      rw [alGet_append_of_none hname, alGet_singleton, if_pos rfl]
  · intro n i hn
    rw [alGet_append] at hn
    cases hg : alGet r.name_index n with
    | some j =>
      rw [hg] at hn
      simp only [Option.or_some] at hn
      cases hn
      obtain ⟨q, hq, hqn⟩ := hr.nameSound n i hg
      exact ⟨q, List.mem_append_left _ hq, hqn⟩
    | none =>
      rw [hg] at hn
      simp only [Option.none_or] at hn
      rw [alGet_singleton] at hn
      split at hn
      · rename_i hnn
        cases hn
        exact ⟨p, List.mem_append_right _ (by simp), hnn⟩
      · simp at hn
  · intro i q hq
    rw [alGet_catAppend]
    rcases List.mem_append.mp hq with h1 | h1
    · obtain ⟨ids, hids, hmem⟩ := hr.catIdx i q h1
      by_cases hc : q.category = p.category
      · rw [if_pos hc, ← hc, hids]
        exact ⟨ids ++ [p.id], rfl, by simp [hmem]⟩
      · rw [if_neg hc]
        exact ⟨ids, hids, hmem⟩
    · simp only [List.mem_singleton, Prod.mk.injEq] at h1
      obtain ⟨rfl, rfl⟩ := h1
      rw [if_pos rfl]
      exact ⟨_, rfl, by simp⟩
  · intro c ids hc i hi
    rw [alGet_catAppend] at hc
    split at hc
    · rename_i hcc
      cases hc
      rcases List.mem_append.mp hi with h1 | h1
      · cases hg : alGet r.category_index p.category with
        | some ids0 =>
          rw [hg] at h1
          obtain ⟨q, hq, hqc⟩ := hr.catSound p.category ids0 hg i h1
          exact ⟨q, List.mem_append_left _ hq, by rw [hcc]; exact hqc⟩
        | none =>
          rw [hg] at h1
          simp at h1
      · simp only [List.mem_singleton] at h1
        subst h1
        exact ⟨p, List.mem_append_right _ (by simp), hcc.symm⟩
    · obtain ⟨q, hq, hqc⟩ := hr.catSound c ids hc i hi
      exact ⟨q, List.mem_append_left _ hq, hqc⟩

/-- Every reachable repository state satisfies the invariant. -/
theorem reachable_inv {r : Repo} (h : Reachable r) : Inv r := by
  induction h with
  | empty => exact inv_empty
  | add _ hadd ih => exact inv_add ih hadd
  | clear _ _ => exact inv_clear _

/-! ## Derived repository facts -/

theorem mem_sortByName {l : List Pattern} {p : Pattern} :
    p ∈ sortByName l ↔ p ∈ l :=
  (List.perm_insertionSort pnameLe l).mem_iff

theorem sorted_sortByName (l : List Pattern) :
    List.Sorted pnameLe (sortByName l) :=
  List.sorted_insertionSort pnameLe l

theorem getById_stored {r : Repo} {p : Pattern} (h : Inv r)
    (hs : storedIn r p) : getById r p.id = some p :=
  h.getId p.id p hs

theorem getByName_stored {r : Repo} {p : Pattern} (h : Inv r)
    (hs : storedIn r p) (hid : p.id ≠ []) : getByName r p.name = some p := by
  unfold getByName
  rw [h.nameIdx p.id p hs]
  dsimp only
  rw [if_neg hid]
  exact h.getId p.id p hs

theorem mem_values {r : Repo} {p : Pattern} (h : Inv r) :
    p ∈ r.patterns.map (fun e => e.2) ↔ storedIn r p := by
  constructor
  · intro hm
    rcases List.mem_map.mp hm with ⟨e, he, rfl⟩
    have hk := h.keys e he
    unfold storedIn
    rw [hk]
    rcases e with ⟨i, q⟩
    exact he
  · intro hs
    exact List.mem_map.mpr ⟨(p.id, p), hs, rfl⟩

theorem mem_listAll {r : Repo} {p : Pattern} (h : Inv r) :
    p ∈ listAll r ↔ storedIn r p := by
  unfold listAll
  rw [mem_sortByName]
  exact mem_values h

theorem mem_getByCategory {r : Repo} {p : Pattern} {c : Str} (h : Inv r) :
    p ∈ getByCategory r c ↔ storedIn r p ∧ p.category = c := by
  unfold getByCategory
  rw [mem_sortByName, List.mem_filterMap]
  constructor
  · rintro ⟨i, hi, hg⟩
    have hm := alGet_mem hg
    have hk := h.keys (i, p) hm
    cases hg2 : alGet r.category_index c with
    | none =>
      rw [hg2] at hi
      simp at hi
    | some ids =>
      rw [hg2] at hi
      simp only [Option.getD_some] at hi
      obtain ⟨q, hq, hqc⟩ := h.catSound c ids hg2 i hi
      have hgq := h.getId i q hq
      rw [hg] at hgq
      simp only [Option.some.injEq] at hgq
      subst hgq
      refine ⟨?_, hqc⟩
      unfold storedIn
      rw [hk]
      exact hm
  · rintro ⟨hs, rfl⟩
    obtain ⟨ids, hids, hmem⟩ := h.catIdx p.id p hs
    refine ⟨p.id, ?_, h.getId p.id p hs⟩
    rw [hids]
    simpa using hmem

/-! ## Case-folding idempotence (for the tag filters) -/

theorem toNat_ofNat_valid {n : Nat} (h : n.isValidChar) :
    (Char.ofNat n).toNat = n := by
  simp only [Char.ofNat, h, dif_pos, Char.ofNatAux, Char.toNat]
  rfl

theorem toLower_idem (c : Char) : c.toLower.toLower = c.toLower := by
  unfold Char.toLower
  dsimp only
  by_cases h : c.toNat ≥ 65 ∧ c.toNat ≤ 90
  · rw [if_pos h]
    have hv : Nat.isValidChar (c.toNat + 32) := Or.inl (by omega)
    have ht : (Char.ofNat (c.toNat + 32)).toNat = c.toNat + 32 :=
      toNat_ofNat_valid hv
    rw [ht, if_neg (by omega)]
  · rw [if_neg h, if_neg h]

theorem strLower_idem (s : Str) : strLower (strLower s) = strLower s := by
  unfold strLower
  rw [List.map_map]
  exact List.map_congr_left (fun c _ => by simpa using toLower_idem c)

/-- `has_tag` applied to an already-lowered tag (as both tag filters do)
tests the same thing as `has_tag` on the raw tag. -/
theorem hasTag_strLower (p : Pattern) (t : Str) :
    p.hasTag (strLower t) = p.hasTag t := by
  simp [Pattern.hasTag, strLower_idem]

/-! ## Engine-level lemmas -/

theorem normalizeQuery_ne_nil (q : Str) : ∀ t ∈ normalizeQuery q, t ≠ [] := by
  intro t ht
  unfold normalizeQuery at ht
  have := List.mem_filter.mp ht
  simpa using this.2

/-- Query normalization distributes over whitespace-separated
concatenation of query strings. -/
theorem normalizeQuery_append (q extra : Str) :
    normalizeQuery (q ++ ' ' :: extra)
      = normalizeQuery q ++ normalizeQuery extra := by
  unfold normalizeQuery
  rw [splitWS_append q extra ' ' (by decide), List.map_append,
    List.filter_append]

theorem mem_filterByTags {l : List Pattern} {ts : List Str} {p : Pattern}
    (hts : ts ≠ []) :
    p ∈ filterByTags l ts ↔ p ∈ l ∧ ∃ t ∈ ts, p.hasTag t = true := by
  unfold filterByTags
  rw [if_neg hts]
  dsimp only
  rw [List.mem_filter]
  constructor
  · rintro ⟨hm, hf⟩
    refine ⟨hm, ?_⟩
    rcases List.any_eq_true.mp hf with ⟨x, hx, hpx⟩
    rcases List.mem_map.mp hx with ⟨t, htt, rfl⟩
    exact ⟨t, htt, by rwa [hasTag_strLower] at hpx⟩
  · rintro ⟨hm, t, htt, hpt⟩
    refine ⟨hm, ?_⟩
    exact List.any_eq_true.mpr
      ⟨strLower t, List.mem_map.mpr ⟨t, htt, rfl⟩, by rwa [hasTag_strLower]⟩

/-- Membership in the candidate set of `KeywordSearchEngine.search`, on a
consistent repository, with a genuine (nonempty) category filter. -/
theorem mem_engineCandidates {r : Repo} {p : Pattern} {cat : Option Str}
    {tags : Option (List Str)} (h : Inv r) (hcat : cat ≠ some []) :
    p ∈ engineCandidates r cat tags ↔
      storedIn r p ∧ (∀ c, cat = some c → p.category = c)
        ∧ (∀ ts, tags = some ts → ts ≠ [] → ∃ t ∈ ts, p.hasTag t = true) := by
  unfold engineCandidates
  have hbase :
      (p ∈ match cat with
        | some c => if c = [] then listAll r else getByCategory r c
        | none => listAll r) ↔
      storedIn r p ∧ (∀ c, cat = some c → p.category = c) := by
    cases cat with
    | none => simpa using mem_listAll h
    | some c =>
      have hc : c ≠ [] := fun hh => hcat (by rw [hh])
      dsimp only
      rw [if_neg hc, mem_getByCategory h]
      constructor
      · rintro ⟨hs, hcc⟩
        exact ⟨hs, fun c' hc' => by cases hc'; exact hcc⟩
      · rintro ⟨hs, hcc⟩
        exact ⟨hs, hcc c rfl⟩
  cases tags with
  | none =>
    dsimp only
    rw [hbase]
    simp
  | some ts =>
    dsimp only
    by_cases hts : ts = []
    · rw [if_pos hts, hbase]
      subst hts
      constructor
      · rintro ⟨hs, hcc⟩
        exact ⟨hs, hcc, fun ts' hts' hne => by cases hts'; exact absurd rfl hne⟩
      · rintro ⟨hs, hcc, _⟩
        exact ⟨hs, hcc⟩
    · rw [if_neg hts, mem_filterByTags hts, hbase]
      constructor
      · rintro ⟨⟨hs, hcc⟩, htag⟩
        exact ⟨hs, hcc, fun ts' hts' _ => by cases hts'; exact htag⟩
      · rintro ⟨hs, hcc, htag⟩
        exact ⟨⟨hs, hcc⟩, htag ts rfl hts⟩

/-- A single-term query that is not a substring of a field's text scores
zero on that field. -/
theorem scoreField_single_eq_zero {p : Pattern} {f : FieldName} {t : Str}
    (h : ¬ t <:+: fieldText p f) : scoreField p f [t] = 0 := by
  unfold scoreField
  dsimp only
  split
  · rfl
  · simp only [List.foldl_cons, List.foldl_nil]
    rw [if_neg (fun hm => h (splitWS_substr _ t hm)), if_neg h]

/-! ## Claims -/

/-- **C1.** For every pattern and every normalized query term list, each
field's raw score is the per-term sum (1.0 for a verbatim token match in
the lower-cased field text's whitespace-split tokens, tags joined by
single spaces; else 0.5 for a substring match; else 0.0); the total score
is the sum over the six fields of the raw field score times the weights
name 5.0, tags 4.0, intent 3.0, category 2.5, problem 2.0, solution 1.5;
and a field is in `matched_fields` iff its raw field score is positive. -/
theorem c1_weighted_field_scoring (p : Pattern) (q : Str) :
    (scorePattern p (normalizeQuery q)).1
      = (specFields.map
          (fun f => scoreFieldSpec p f (normalizeQuery q) * specWeight f)).sum
    ∧ ∀ f : FieldName,
        f ∈ (scorePattern p (normalizeQuery q)).2
          ↔ 0 < scoreFieldSpec p f (normalizeQuery q) := by
  have hne := normalizeQuery_ne_nil q
  have hsf : ∀ f : FieldName,
      scoreField p f (normalizeQuery q)
        = scoreFieldSpec p f (normalizeQuery q) :=
    fun f => scoreField_eq_spec p f _ hne
  constructor
  · rw [scorePattern_fst]
    simp only [FIELD_WEIGHTS, specFields, List.map_cons, List.map_nil,
      List.sum_cons, List.sum_nil, hsf, specWeight]
    ring
  · intro f
    rw [scorePattern_snd, hsf]

/-- **C7.** Appending additional terms to the query never decreases a
pattern's total score — at the term-list level and at the query-string
level (terms appended after a separating space). -/
theorem c7_score_monotonicity (p : Pattern) (ts extra : List Str)
    (q more : Str) :
    (scorePattern p ts).1 ≤ (scorePattern p (ts ++ extra)).1
    ∧ (scorePattern p (normalizeQuery q)).1
        ≤ (scorePattern p (normalizeQuery (q ++ ' ' :: more))).1 := by
  have key : ∀ a b : List Str,
      (scorePattern p a).1 ≤ (scorePattern p (a ++ b)).1 := by
    intro a b
    rw [scorePattern_fst, scorePattern_fst]
    apply List.sum_le_sum
    intro fw hfw
    have hw : (0 : ℚ) ≤ fw.2 := by fin_cases hfw <;> norm_num
    rw [scoreField_append]
    exact mul_le_mul_of_nonneg_right
      (le_add_of_nonneg_right (scoreField_nonneg p fw.1 b)) hw
  exact ⟨key ts extra, by rw [normalizeQuery_append]; exact key _ _⟩

/-- **C8.** The engine's `search` leaves the repository unchanged: with
the repository state threaded through every repository access, the state
coming out (all three indexes) is the state that went in, and the results
are those of the read-only model. -/
theorem c8_search_frame (r : Repo) (q : Str) (cat : Option Str)
    (tags : Option (List Str)) :
    (engineSearchSt r q cat tags).2.patterns = r.patterns
    ∧ (engineSearchSt r q cat tags).2.name_index = r.name_index
    ∧ (engineSearchSt r q cat tags).2.category_index = r.category_index
    ∧ (engineSearchSt r q cat tags).1 = engineSearch r q cat tags := by
  have hst : engineSearchSt r q cat tags = (engineSearch r q cat tags, r) := by
    unfold engineSearchSt engineSearch engineCandidates listAllSt
      getByCategorySt
    rcases cat with _ | c <;> rcases tags with _ | ts <;> dsimp only <;>
      split_ifs <;> rfl
  rw [hst]
  exact ⟨rfl, rfl, rfl, rfl⟩

/-- **C2.** For a non-whitespace query, the engine's results are exactly
the candidate patterns with nonzero total score (zero-scored patterns are
excluded), sorted by score descending with pattern name ascending as the
tie-break; repeated calls return the identical sequence. -/
theorem c2_ranked_result_set (r : Repo) (q : Str) (cat : Option Str)
    (tags : Option (List Str)) (hq : pyStrip q ≠ []) :
    (∀ res : SearchResult,
        res ∈ engineSearch r q cat tags ↔
          ∃ p ∈ engineCandidates r cat tags,
            (scorePattern p (normalizeQuery q)).1 ≠ 0
              ∧ res = SearchResult.mk p (scorePattern p (normalizeQuery q)).1
                  (scorePattern p (normalizeQuery q)).2)
    ∧ List.Sorted resLe (engineSearch r q cat tags)
    ∧ engineSearch r q cat tags = engineSearch r q cat tags := by
  have hq2 : ¬ (q = [] ∨ pyStrip q = []) := by
    rintro (rfl | h)
    · exact hq rfl
    · exact hq h
  refine ⟨?_, ?_, rfl⟩
  · intro res
    unfold engineSearch
    dsimp only
    rw [if_neg hq2, (List.perm_insertionSort resLe _).mem_iff,
      List.mem_filterMap]
    constructor
    · rintro ⟨p, hp, hg⟩
      split_ifs at hg with hpos
      simp only [Option.some.injEq] at hg
      exact ⟨p, hp, ne_of_gt hpos, hg.symm⟩
    · rintro ⟨p, hp, hne, rfl⟩
      have hpos : 0 < (scorePattern p (normalizeQuery q)).1 :=
        lt_of_le_of_ne (scorePattern_fst_nonneg p _) (Ne.symm hne)
      exact ⟨p, hp, by rw [if_pos hpos]⟩
  · unfold engineSearch
    dsimp only
    rw [if_neg hq2]
    exact List.sorted_insertionSort resLe _

/-- Witness for C2 at a concrete corpus and query. -/
theorem c2_ranked_result_set_witness :
    pyStrip qSing ≠ []
    ∧ List.Sorted resLe (engineSearch rSing qSing none none) :=
  ⟨by decide, (c2_ranked_result_set rSing qSing none none (by decide)).2.1⟩

/-- **C3.** With an empty (or all-whitespace) query and a category filter
(and optionally a tag filter), the engine returns exactly the repository's
patterns of that category (passing the tag filter), each with score `0`
and empty `matched_fields`, sorted by pattern name ascending. -/
theorem c3_empty_query_browse (r : Repo) (q C : Str)
    (tags : Option (List Str)) (hr : Reachable r) (hq : pyStrip q = [])
    (hC : C ≠ []) :
    (∀ res : SearchResult,
        res ∈ engineSearch r q (some C) tags ↔
          ∃ p, storedIn r p ∧ p.category = C
            ∧ (∀ ts, tags = some ts → ts ≠ [] → ∃ t ∈ ts, p.hasTag t = true)
            ∧ res = SearchResult.mk p 0 ∅)
    ∧ List.Sorted resNameLe (engineSearch r q (some C) tags) := by
  have h := reachable_inv hr
  have hcond : q = [] ∨ pyStrip q = [] := Or.inr hq
  have hcat : (some C : Option Str) ≠ some [] :=
    fun hh => hC (Option.some.inj hh)
  constructor
  · intro res
    unfold engineSearch
    dsimp only
    rw [if_pos hcond, (List.perm_insertionSort resNameLe _).mem_iff,
      List.mem_map]
    constructor
    · rintro ⟨p, hp, rfl⟩
      obtain ⟨hs, hcc, htag⟩ := (mem_engineCandidates h hcat).mp hp
      exact ⟨p, hs, hcc C rfl, htag, rfl⟩
    · rintro ⟨p, hs, hcatp, htag, rfl⟩
      refine ⟨p, ?_, rfl⟩
      exact (mem_engineCandidates h hcat).mpr
        ⟨hs, fun c hc => by cases hc; exact hcatp, htag⟩
  · unfold engineSearch
    dsimp only
    rw [if_pos hcond]
    exact List.sorted_insertionSort resNameLe _

/-- Witness for C3 at a concrete corpus, category and tag filter. -/
theorem c3_empty_query_browse_witness :
    Reachable rSing ∧ pyStrip ([' '] : Str) = []
    ∧ List.Sorted resNameLe
        (engineSearch rSing [' '] (some (("Creational").toList))
          (some [("creation".toList)])) :=
  ⟨@Reachable.add emptyRepo rSing pSingleton Reachable.empty (by decide),
    by decide,
    (c3_empty_query_browse rSing [' '] (("Creational").toList)
      (some [("creation".toList)])
      (@Reachable.add emptyRepo rSing pSingleton Reachable.empty (by decide))
      (by decide) (by decide)).2⟩

/-- **C4.** `add` fails with the duplicate-id conflict when the id is
already present, with the duplicate-name conflict when the name is already
present (the id being fresh), and a failed add leaves the repository state
— all three indexes — exactly as it was; in particular adding a second
pattern with the same name and a different id to a one-pattern repository
raises the duplicate-name conflict and the count stays `1`. -/
theorem c4_duplicate_conflicts (r : Repo) (p : Pattern) :
    (∀ e r', addPattern r p = (some e, r') → r' = r)
    ∧ ((alGet r.patterns p.id).isSome = true →
        addPattern r p = (some (.duplicateId p.id), r))
    ∧ ((alGet r.patterns p.id).isSome = false →
        ∀ i, alGet r.name_index p.name = some i →
          addPattern r p = (some (.duplicateName p.name i), r))
    ∧ (∀ q : Pattern, q.name = p.name → q.id ≠ p.id →
        ∀ r1, addPattern emptyRepo p = (none, r1) →
          addPattern r1 q = (some (.duplicateName q.name p.id), r1)
            ∧ countRepo r1 = 1) := by
  refine ⟨?_, ?_, ?_, ?_⟩
  · intro e r' h
    unfold addPattern at h
    split at h
    · injection h with h1 h2
      exact h2.symm
    · split at h
      · injection h with h1 h2
        exact h2.symm
      · simp at h
  · intro hp
    unfold addPattern
    rw [if_pos hp]
  · intro hp i hn
    unfold addPattern
    rw [if_neg (by rw [hp]; exact Bool.false_ne_true), hn]
  · intro q hqname hqid r1 hadd
    obtain ⟨_, _, rfl⟩ := addPattern_ok hadd
    have h0p : alGet emptyRepo.patterns q.id = none := rfl
    have h0n : alGet emptyRepo.name_index q.name = none := rfl
    have hpat : alGet (emptyRepo.patterns ++ [(p.id, p)]) q.id = none := by
      rw [alGet_append_of_none h0p, alGet_singleton,
        if_neg (fun hh => hqid hh.symm)]
    have hni : alGet (emptyRepo.name_index ++ [(p.name, p.id)]) q.name
        = some p.id := by
      rw [alGet_append_of_none h0n, alGet_singleton, if_pos hqname.symm]
    constructor
    · unfold addPattern
      rw [if_neg (by rw [hpat]; exact Bool.false_ne_true), hni]
    · simp [countRepo, emptyRepo]

/-- Witness for C4: the duplicate-name scenario on concrete patterns. -/
theorem c4_duplicate_conflicts_witness :
    addPattern rX pY = (some (.duplicateName pY.name pX.id), rX)
    ∧ countRepo rX = 1 :=
  (c4_duplicate_conflicts emptyRepo pX).2.2.2 pY rfl (by decide) rX (by decide)

/-- **C5 (counterexample to the claim as stated).** A pattern whose id is
the empty string is accepted by `add` (the state is reachable and the
pattern stored), yet `get_pattern_by_name` does not return it: the
truthiness test on the id treats the stored empty-string id like a missing
name-index entry. -/
theorem c5_counterexample :
    Reachable rEmptyId ∧ storedIn rEmptyId pEmptyId
    ∧ getByName rEmptyId pEmptyId.name ≠ some pEmptyId :=
  ⟨@Reachable.add emptyRepo rEmptyId pEmptyId Reachable.empty (by decide),
    by decide, by decide⟩

/-- **C5 (amended).** In every reachable repository state, every stored
pattern `p` satisfies `getById p.id = p` and `p.id ∈` the category-index
entry for `p.category`; and `getByName p.name = p` holds whenever `p.id`
is non-empty (a pattern stored under the empty-string id is invisible to
the name lookup). -/
theorem c5_index_consistency (r : Repo) (p : Pattern) (hr : Reachable r)
    (hs : storedIn r p) :
    getById r p.id = some p
    ∧ (p.id ≠ [] → getByName r p.name = some p)
    ∧ ∃ ids, alGet r.category_index p.category = some ids ∧ p.id ∈ ids := by
  have h := reachable_inv hr
  exact ⟨getById_stored h hs, fun hid => getByName_stored h hs hid,
    h.catIdx p.id p hs⟩

/-- Witness for C5 (amended) on a concrete reachable repository. -/
theorem c5_index_consistency_witness :
    Reachable rSing ∧ storedIn rSing pSingleton
    ∧ getById rSing pSingleton.id = some pSingleton :=
  ⟨@Reachable.add emptyRepo rSing pSingleton Reachable.empty (by decide),
    by decide,
    (c5_index_consistency rSing pSingleton
      (@Reachable.add emptyRepo rSing pSingleton Reachable.empty (by decide))
      (by decide)).1⟩

/-- The repository's inline query filter, as a membership fact. -/
theorem repoQueryFilter_mem {l : List Pattern} {p : Pattern} {q : Str} :
    (p ∈ if q = [] then l
          else l.filter (fun p => p.matchesSearchQuery q)) ↔
      p ∈ l ∧ (q ≠ [] → p.matchesSearchQuery q = true) := by
  by_cases hq : q = []
  · rw [if_pos hq]
    simp [hq]
  · rw [if_neg hq, List.mem_filter]
    simp [hq]

/-- The repository's inline tag filter, as a membership fact. -/
theorem repoTagFilter_mem {l : List Pattern} {ts : List Str} {p : Pattern} :
    p ∈ l.filter (fun p => (ts.map strLower).any (fun t => p.hasTag t)) ↔
      p ∈ l ∧ ∃ t ∈ ts, p.hasTag t = true := by
  rw [List.mem_filter]
  constructor
  · rintro ⟨hm, hf⟩
    refine ⟨hm, ?_⟩
    rcases List.any_eq_true.mp hf with ⟨x, hx, hpx⟩
    rcases List.mem_map.mp hx with ⟨t, htt, rfl⟩
    exact ⟨t, htt, by rwa [hasTag_strLower] at hpx⟩
  · rintro ⟨hm, t, htt, hpt⟩
    exact ⟨hm, List.any_eq_true.mpr
      ⟨strLower t, List.mem_map.mpr ⟨t, htt, rfl⟩, by rwa [hasTag_strLower]⟩⟩

/-- **C6.** The repository's unranked `search_patterns` keeps exactly the
stored patterns passing the category filter (exact match), the tag filter
(OR semantics, case-insensitive) and — for a non-empty query — the
substring test on the case-folded concatenation of name, intent, problem,
solution and tags; the result is sorted by name ascending. -/
theorem c6_unranked_search (r : Repo) (q : Str) (cat : Option Str)
    (tags : Option (List Str)) (hr : Reachable r) (hcat : cat ≠ some [])
    (htags : tags ≠ some []) :
    (∀ p : Pattern,
        p ∈ searchPatterns r q cat tags ↔
          storedIn r p
            ∧ (∀ c, cat = some c → p.category = c)
            ∧ (∀ ts, tags = some ts → ∃ t ∈ ts, p.hasTag t = true)
            ∧ (q ≠ [] → p.matchesSearchQuery q = true))
    ∧ List.Sorted pnameLe (searchPatterns r q cat tags) := by
  have h := reachable_inv hr
  refine ⟨?_, sorted_sortByName _⟩
  intro p
  unfold searchPatterns
  cases cat with
  | none =>
    cases tags with
    | none =>
      dsimp only
      rw [mem_sortByName, repoQueryFilter_mem, mem_values h]
      simp
    | some ts =>
      have hts : ts ≠ [] := fun hh => htags (by rw [hh])
      dsimp only
      rw [if_neg hts, mem_sortByName, repoQueryFilter_mem, repoTagFilter_mem,
        mem_values h]
      simp only [Option.some.injEq, forall_eq']
      constructor
      · rintro ⟨⟨hs, htag⟩, hmq⟩
        exact ⟨hs, by simp, htag, hmq⟩
      · rintro ⟨hs, _, htag, hmq⟩
        exact ⟨⟨hs, htag⟩, hmq⟩
  | some c =>
    have hc : c ≠ [] := fun hh => hcat (by rw [hh])
    cases tags with
    | none =>
      dsimp only
      rw [if_neg hc, mem_sortByName, repoQueryFilter_mem,
        mem_getByCategory h]
      simp only [Option.some.injEq, forall_eq']
      constructor
      · rintro ⟨⟨hs, hcc⟩, hmq⟩
        exact ⟨hs, hcc, by simp, hmq⟩
      · rintro ⟨hs, hcc, _, hmq⟩
        exact ⟨⟨hs, hcc⟩, hmq⟩
    | some ts =>
      have hts : ts ≠ [] := fun hh => htags (by rw [hh])
      dsimp only
      rw [if_neg hc, if_neg hts, mem_sortByName, repoQueryFilter_mem,
        repoTagFilter_mem, mem_getByCategory h]
      simp only [Option.some.injEq, forall_eq']
      constructor
      · rintro ⟨⟨⟨hs, hcc⟩, htag⟩, hmq⟩
        exact ⟨hs, hcc, htag, hmq⟩
      · rintro ⟨hs, hcc, htag, hmq⟩
        exact ⟨⟨⟨hs, hcc⟩, htag⟩, hmq⟩

/-- Witness for C6 on a concrete repository, query and tag filter. -/
theorem c6_unranked_search_witness :
    Reachable rSing
    ∧ List.Sorted pnameLe
        (searchPatterns rSing ("class".toList) none
          (some [("creation".toList)])) :=
  ⟨@Reachable.add emptyRepo rSing pSingleton Reachable.empty (by decide),
    (c6_unranked_search rSing ("class".toList) none
      (some [("creation".toList)])
      (@Reachable.add emptyRepo rSing pSingleton Reachable.empty (by decide))
      (by decide) (by decide)).2⟩

/-- **C9 (counterexample to the claim as stated).** "Any non-empty corpus"
is too strong: a corpus that itself contains the string
`zzznonexistent` (here, as a pattern name) produces a non-empty result. -/
theorem c9_counterexample :
    countRepo rZZZ ≠ 0 ∧ engineSearch rZZZ qZZZ none none ≠ [] := by
  constructor
  · decide
  · have hterms : normalizeQuery qZZZ = [qZZZ] := by decide
    have hpos : 0 < (scorePattern pZZZ (normalizeQuery qZZZ)).1 := by
      rw [hterms, scorePattern_fst]
      have hname : (1 : ℚ) ≤ scoreField pZZZ .name [qZZZ] := by
        unfold scoreField
        dsimp only
        rw [if_neg (by decide)]
        simp only [List.foldl_cons, List.foldl_nil]
        rw [if_pos (by decide)]
        norm_num [EXACT_MATCH_SCORE]
      simp only [FIELD_WEIGHTS, List.map_cons, List.map_nil, List.sum_cons,
        List.sum_nil]
      have h2 := scoreField_nonneg pZZZ .intent [qZZZ]
      have h3 := scoreField_nonneg pZZZ .problem [qZZZ]
      have h4 := scoreField_nonneg pZZZ .solution [qZZZ]
      have h5 := scoreField_nonneg pZZZ .tags [qZZZ]
      have h6 := scoreField_nonneg pZZZ .category [qZZZ]
      linarith [hname, h2, h3, h4, h5, h6]
    unfold engineSearch
    dsimp only
    rw [if_neg (by decide)]
    have hcand : engineCandidates rZZZ none none = [pZZZ] := by decide
    rw [hcand]
    simp only [List.filterMap_cons, List.filterMap_nil]
    rw [if_pos hpos]
    simp [List.insertionSort, List.orderedInsert]

/-- **C9 (amended).** On every non-empty corpus in which the term
`zzznonexistent` does not occur as a substring of any pattern's six
(lower-cased) field texts, `search("zzznonexistent")` returns the empty
sequence. -/
theorem c9_no_match_empty (r : Repo) (_hne : r.patterns ≠ [])
    (h : ∀ p ∈ r.patterns.map (fun e => e.2), ∀ f : FieldName,
      ¬ qZZZ <:+: fieldText p f) :
    engineSearch r qZZZ none none = [] := by
  unfold engineSearch
  dsimp only
  rw [if_neg (by decide)]
  have hnq : normalizeQuery qZZZ = [qZZZ] := by decide
  have hfm : (engineCandidates r none none).filterMap
      (fun p =>
        let sm := scorePattern p (normalizeQuery qZZZ)
        if 0 < sm.1 then
          some (SearchResult.mk p sm.1 sm.2) else none) = [] := by
    apply List.filterMap_eq_nil_iff.mpr
    intro p hp
    have hp2 : p ∈ r.patterns.map (fun e => e.2) := by
      have hmem : p ∈ listAll r := hp
      unfold listAll at hmem
      exact mem_sortByName.mp hmem
    have hzero : (scorePattern p (normalizeQuery qZZZ)).1 = 0 := by
      rw [hnq, scorePattern_fst]
      have hsf : ∀ f : FieldName, scoreField p f [qZZZ] = 0 :=
        fun f => scoreField_single_eq_zero (h p hp2 f)
      simp [FIELD_WEIGHTS, hsf]
    dsimp only
    rw [if_neg (by rw [hzero]; norm_num)]
  rw [hfm]
  rfl

/-- Witness for the amended C9: a non-empty corpus without the string. -/
theorem c9_no_match_empty_witness :
    rSing.patterns ≠ [] ∧ engineSearch rSing qZZZ none none = [] :=
  ⟨by decide, c9_no_match_empty rSing (by decide) (by decide)⟩

/-- **C10.** `Pattern` validation accepts an empty-string id, and a stored
pattern whose id is the empty string is found by `get_pattern_by_id("")`
but not by `get_pattern_by_name`, whose truthiness test on the looked-up
id treats the falsy empty string like an absent name-index entry. -/
theorem c10_empty_id_lookup (r : Repo) (p : Pattern) (hr : Reachable r)
    (hs : storedIn r p) (hid : p.id = []) :
    validatePattern rawA = some pEmptyId ∧ pEmptyId.id = []
    ∧ getByName r p.name = none
    ∧ getById r ([] : Str) = some p := by
  have h := reachable_inv hr
  refine ⟨by decide, rfl, ?_, ?_⟩
  · unfold getByName
    rw [h.nameIdx p.id p hs]
    dsimp only
    rw [if_pos hid]
  · have hg := h.getId p.id p hs
    rwa [hid] at hg

/-- Witness for C10 on the concrete empty-id repository. -/
theorem c10_empty_id_lookup_witness :
    Reachable rEmptyId ∧ storedIn rEmptyId pEmptyId
    ∧ getByName rEmptyId pEmptyId.name = none :=
  ⟨@Reachable.add emptyRepo rEmptyId pEmptyId Reachable.empty (by decide),
    by decide,
    (c10_empty_id_lookup rEmptyId pEmptyId
      (@Reachable.add emptyRepo rEmptyId pEmptyId Reachable.empty (by decide))
      (by decide) rfl).2.2.1⟩

end PatternSphere
